import Mathlib

/-!
# Verification of the self-contained GIF encoder (`GIFEncoder`)

Shallow embedding of the byte-level GIF encoder: the `GIFEncoder` object
accumulates bytes in `this.data`; we model every writer as a function
producing the `List Nat` of bytes it appends.  JavaScript numbers passed to
the writers are modelled as `Nat` (the encoder only ever passes nonnegative
integers).
-/

namespace GIFEnc

/-- `writeByte(b)` pushes `b & 0xFF`.  JS `&` converts to int32 first
(`ToInt32` reduces mod `2^32`); since `256 ∣ 2^32` the low byte is
unchanged by that wrap, so `b & 0xFF = b % 256` for natural `b`. -/
def writeByte (b : Nat) : List Nat := [b % 256]

/-- `writeShort(s)` writes `s & 0xFF` then `(s >> 8) & 0xFF`.
For the high byte, JS converts `s` to int32 (wrap mod `2^32`, values
`≥ 2^31` becoming negative), arithmetic-shifts right by 8 (floor division
by 256, with sign extension only in bits ≥ 16), and masks with `0xFF`.
On the unsigned bit pattern `s % 2^32` this is `s % 2^32 / 256 % 256`:
sign extension touches only bits the final `& 0xFF` discards, and floor
division of the negative representative differs from `s % 2^32 / 256`
by a multiple of `2^24`, invisible mod 256. -/
def writeShort (s : Nat) : List Nat :=
  writeByte (s % 256) ++ writeByte (s % 4294967296 / 256 % 256)

/-- `writeString(s)` writes `charCodeAt` of every character; for the ASCII
literals used by the encoder the UTF-16 code unit is `Char.toNat`. -/
def writeString (s : String) : List Nat := s.toList.map (fun c => c.toNat % 256)

/-- Bytes appended by `start()`: `GIF89a` signature, logical screen
descriptor, and the NETSCAPE2.0 looping application extension. -/
def start (w h : Nat) : List Nat :=
  writeString "GIF89a" ++ writeShort w ++ writeShort h ++
  writeByte 0x70 ++ writeByte 0 ++ writeByte 0 ++
  writeByte 0x21 ++ writeByte 0xFF ++ writeByte 0x0B ++
  writeString "NETSCAPE2.0" ++ writeByte 0x03 ++ writeByte 0x01 ++
  writeShort 0 ++ writeByte 0x00

/-- Bytes appended by `finish()` before the blob is built: the trailer. -/
def finish (data : List Nat) : List Nat := data ++ writeByte 0x3B

/-- `Math.round(delay / 10)` for a natural `delay`:
`⌊delay/10 + 1/2⌋ = (delay + 5) / 10` (natural division). -/
def roundDiv10 (delay : Nat) : Nat := (delay + 5) / 10

theorem writeShort_eq (s : Nat) : writeShort s = [s % 256, s / 256 % 256] := by
  unfold writeShort writeByte
  have h1 : s % 256 % 256 = s % 256 := Nat.mod_mod_of_dvd s (dvd_refl 256)
  have h2 : s % 4294967296 / 256 % 256 % 256 = s / 256 % 256 := by omega
  simp [h1, h2]

/-! ## LZW encoder (`lzwEncode`)

The JS function interleaves two independent concerns: the code-level LZW
loop (dictionary, `codeSize`, `nextCode`) and the bit packer `emit`
(`buffer`/`bufferLen`), which only reads the current `codeSize` and never
influences control flow.  We model the loop as a state machine that records
each emitted code together with the `codeSize` and `nextCode` current at the
moment of emission, and the packer as a separate pass over that trace.

The JS dictionary is an object keyed by the string `prev + ',' + curr`
(injective in the pair), written only at absent keys; we model it as an
association list over the pair with exact-match lookup. -/

/-- Lookup in the LZW dictionary (`dict[key] !== undefined`). -/
def dictFind (d : List ((Nat × Nat) × Nat)) (k : Nat × Nat) : Option Nat :=
  match d with
  | [] => none
  | e :: rest => if (e.1.1.beq k.1 && e.1.2.beq k.2) = true then some e.2 else dictFind rest k

/-- LZW loop state: dictionary, code width, next free code, current
sequence's code (`prev`). -/
structure LZWState where
  dict : List ((Nat × Nat) × Nat)
  codeSize : Nat
  nextCode : Nat
  prev : Nat
  deriving Repr, DecidableEq

/-- One loop iteration of `lzwEncode` for pixel `curr`.  Returns the codes
emitted during this iteration — each paired with the (`codeSize`,
`nextCode`) in force when `emit` was called — and the next state.

Mirrors the source: on a dictionary hit, `prev` becomes the stored code;
on a miss, `prev` is emitted first, then if `nextCode < 4096` the new
sequence is registered (`dict[key] = nextCode++`) and afterwards
`codeSize` grows iff the incremented `nextCode` exceeds `1 << codeSize`
(and `codeSize < 12`); otherwise the clear code is emitted and the
dictionary, `codeSize` and `nextCode` are reset. -/
def lzwStep (s : LZWState) (curr : Nat) : List (Nat × Nat × Nat) × LZWState :=
  match dictFind s.dict (s.prev, curr) with
  | some code => ([], { s with prev := code })
  | none =>
    if s.nextCode < 4096 then
      ([(s.prev, s.codeSize, s.nextCode)],
       { dict := ((s.prev, curr), s.nextCode) :: s.dict
         codeSize :=
           if s.nextCode + 1 > 1 <<< s.codeSize ∧ s.codeSize < 12 then s.codeSize + 1
           else s.codeSize
         nextCode := s.nextCode + 1
         prev := curr })
    else
      ([(s.prev, s.codeSize, s.nextCode), (256, s.codeSize, s.nextCode)],
       { dict := [], codeSize := 9, nextCode := 258, prev := curr })

/-- The `for (var i = 1; ...)` loop over the remaining pixels. -/
def lzwLoop (pixels : List Nat) (s : LZWState) : List (Nat × Nat × Nat) × LZWState :=
  match pixels with
  | [] => ([], s)
  | c :: rest =>
    let r := lzwStep s c
    let r2 := lzwLoop rest r.2
    (r.1 ++ r2.1, r2.2)

/-- Full code-level run of `lzwEncode` on a non-empty index plane
`p0 :: rest`: the initial clear code (emitted at `codeSize = 9`,
`nextCode = 258`), the loop emissions, then the final `prev` and the
end-of-information code `257`. -/
def lzwInit (p0 : Nat) : LZWState :=
  { dict := [], codeSize := 9, nextCode := 258, prev := p0 }

def lzwRun (p0 : Nat) (rest : List Nat) : List (Nat × Nat × Nat) × LZWState :=
  ((256, 9, 258) :: (lzwLoop rest (lzwInit p0)).1 ++
      [((lzwLoop rest (lzwInit p0)).2.prev, (lzwLoop rest (lzwInit p0)).2.codeSize,
        (lzwLoop rest (lzwInit p0)).2.nextCode),
       (257, (lzwLoop rest (lzwInit p0)).2.codeSize, (lzwLoop rest (lzwInit p0)).2.nextCode)],
   (lzwLoop rest (lzwInit p0)).2)

/-- The code width the spec prescribes for a given `nextCode`:
9 bits up to 512, one more bit each time `nextCode` passes a power of two,
capped at 12. -/
def widthFor (n : Nat) : Nat :=
  if n ≤ 512 then 9 else if n ≤ 1024 then 10 else if n ≤ 2048 then 11 else 12

/-- Reachability invariant of the LZW loop state. -/
def lzwInv (s : LZWState) : Prop :=
  s.codeSize = widthFor s.nextCode ∧ 258 ≤ s.nextCode ∧ s.nextCode ≤ 4096

theorem lzwStep_inv (s : LZWState) (curr : Nat) (h : lzwInv s) :
    lzwInv (lzwStep s curr).2 ∧
    ∀ e ∈ (lzwStep s curr).1, e.2.1 = widthFor e.2.2 ∧ 258 ≤ e.2.2 ∧ e.2.2 ≤ 4096 := by
  obtain ⟨hw, hlo, hhi⟩ := h
  unfold lzwStep
  cases dictFind s.dict (s.prev, curr) with
  | some code =>
    simp [lzwInv, hw, hlo, hhi]
  | none =>
    by_cases hfull : s.nextCode < 4096
    · have hshift : (1 <<< s.codeSize) = 2 ^ s.codeSize := Nat.one_shiftLeft s.codeSize
      simp only [hfull, if_true, lzwInv]
      constructor
      · refine ⟨?_, by omega, by omega⟩
        simp only [hshift, hw]
        unfold widthFor
        split_ifs <;> simp_all <;> omega
      · intro e he
        simp only [List.mem_singleton] at he
        subst he
        exact ⟨hw, hlo, hhi⟩
    · simp only [hfull, if_false, lzwInv]
      refine ⟨⟨rfl, by omega, by omega⟩, ?_⟩
      intro e he
      simp only [List.mem_cons, List.mem_singleton] at he
      rcases he with he | he | he <;> first
        | (subst he; exact ⟨hw, hlo, hhi⟩)
        | cases he

theorem lzwLoop_inv (pixels : List Nat) (s : LZWState) (h : lzwInv s) :
    lzwInv (lzwLoop pixels s).2 ∧
    ∀ e ∈ (lzwLoop pixels s).1, e.2.1 = widthFor e.2.2 ∧ 258 ≤ e.2.2 ∧ e.2.2 ≤ 4096 := by
  induction pixels generalizing s with
  | nil => exact ⟨h, by simp [lzwLoop]⟩
  | cons c rest ih =>
    obtain ⟨h1, h2⟩ := lzwStep_inv s c h
    obtain ⟨h3, h4⟩ := ih (lzwStep s c).2 h1
    refine ⟨by simpa [lzwLoop] using h3, ?_⟩
    intro e he
    simp only [lzwLoop, List.mem_append] at he
    rcases he with he | he
    · exact h2 e he
    · exact h4 e he

theorem lzwRun_inv (p0 : Nat) (rest : List Nat) :
    lzwInv (lzwRun p0 rest).2 ∧
    ∀ e ∈ (lzwRun p0 rest).1, e.2.1 = widthFor e.2.2 ∧ 258 ≤ e.2.2 ∧ e.2.2 ≤ 4096 := by
  have h0 : lzwInv (lzwInit p0) := by
    refine ⟨?_, ?_, ?_⟩ <;> norm_num [lzwInit, widthFor]
  obtain ⟨h1, h2⟩ := lzwLoop_inv rest _ h0
  simp only [lzwRun]
  refine ⟨h1, ?_⟩
  intro e he
  simp only [List.cons_append, List.nil_append, List.mem_cons, List.mem_append,
    List.mem_singleton, List.not_mem_nil, or_false] at he
  rcases he with he | he | he | he
  · subst he
    refine ⟨by decide, by decide, by decide⟩
  · exact h2 e he
  · subst he
    exact ⟨h1.1, h1.2.1, h1.2.2⟩
  · subst he
    exact ⟨h1.1, h1.2.1, h1.2.2⟩

/-- Index plane that registers exactly 511 fresh dictionary entries:
first pixel 0, then `1,0,2,0,…,255,0,0`; every consecutive pair is a new
key, so `nextCode` runs from 258 to 769. -/
def growPixels : List Nat := ((List.range 255).flatMap (fun k => [k + 1, 0])) ++ [0]

set_option maxRecDepth 100000 in
set_option maxHeartbeats 3000000 in
/-- C1: In `lzwEncode` the code width starts at 9 bits, grows by one bit
exactly when `nextCode` exceeds `2^codeSize` (cap 12), growth happens only
after the new dictionary entry is registered, and only later emissions use
the wider width: (1) every emission of every run carries
`codeSize = widthFor nextCode` for the `nextCode` in force at that emission,
with `258 ≤ nextCode ≤ 4096`; (2) a registering step first emits `prev` at
the current width, then bumps `nextCode`, then widens iff the incremented
`nextCode` exceeds `2^codeSize` and `codeSize < 12`; (3) on the stream
`growPixels` registering 511 entries, the emitted widths are 9 for the
clear code and the first 255 emissions and 10 from the emission after
`nextCode` passes `2^9 = 512` onwards, with final `nextCode = 769`. -/
theorem lzw_codeSize_growth :
    (∀ p0 rest, ∀ e ∈ (lzwRun p0 rest).1,
        e.2.1 = widthFor e.2.2 ∧ 258 ≤ e.2.2 ∧ e.2.2 ≤ 4096) ∧
    (∀ s curr, dictFind s.dict (s.prev, curr) = none → s.nextCode < 4096 →
        (lzwStep s curr).1 = [(s.prev, s.codeSize, s.nextCode)] ∧
        (lzwStep s curr).2.nextCode = s.nextCode + 1 ∧
        (lzwStep s curr).2.codeSize =
          (if s.nextCode + 1 > 2 ^ s.codeSize ∧ s.codeSize < 12
           then s.codeSize + 1 else s.codeSize)) ∧
    ((lzwRun 0 growPixels).1.map (fun e => e.2.1)
        = List.replicate 256 9 ++ List.replicate 258 10) ∧
    (lzwRun 0 growPixels).2.nextCode = 769 := by
  refine ⟨fun p0 rest => (lzwRun_inv p0 rest).2, ?_, by decide, by decide⟩
  intro s curr hmiss hlt
  unfold lzwStep
  rw [hmiss]
  simp [hlt, Nat.one_shiftLeft]

theorem lzw_codeSize_growth_witness :
    ((9 : Nat) = widthFor 258 ∧ 258 ≤ 258 ∧ (258 : Nat) ≤ 4096) ∧
    ((lzwStep ⟨[], 9, 258, 0⟩ 1).1 = [(0, 9, 258)] ∧
      (lzwStep ⟨[], 9, 258, 0⟩ 1).2.nextCode = 258 + 1 ∧
      (lzwStep ⟨[], 9, 258, 0⟩ 1).2.codeSize =
        (if 258 + 1 > 2 ^ 9 ∧ 9 < 12 then 9 + 1 else 9)) :=
  ⟨lzw_codeSize_growth.1 0 [0, 0, 0] (256, 9, 258) (by decide),
   lzw_codeSize_growth.2.1 ⟨[], 9, 258, 0⟩ 1 (by decide) (by decide)⟩

/-- C2: When the dictionary is full (`nextCode = 4096`) and a new
sequence would otherwise be added, `lzwEncode` emits the clear code and
resets the dictionary to empty, `codeSize` to 9 and `nextCode` to 258
(after first emitting `prev` for the pending sequence); and on every run
`nextCode` never exceeds 4096 — in the final state and at every emission —
so the dictionary-overflow condition is unreachable. -/
theorem lzw_dict_reset :
    (∀ s curr, s.nextCode = 4096 → dictFind s.dict (s.prev, curr) = none →
        lzwStep s curr = ([(s.prev, s.codeSize, 4096), (256, s.codeSize, 4096)],
          { dict := [], codeSize := 9, nextCode := 258, prev := curr })) ∧
    (∀ p0 rest, (lzwRun p0 rest).2.nextCode ≤ 4096 ∧
        ∀ e ∈ (lzwRun p0 rest).1, e.2.2 ≤ 4096) := by
  constructor
  · intro s curr hfull hmiss
    unfold lzwStep
    rw [hmiss, hfull]
    simp
  · intro p0 rest
    obtain ⟨⟨_, _, hhi⟩, htr⟩ := lzwRun_inv p0 rest
    exact ⟨hhi, fun e he => (htr e he).2.2⟩

theorem lzw_dict_reset_witness :
    lzwStep ⟨[], 12, 4096, 5⟩ 7
      = ([(5, 12, 4096), (256, 12, 4096)],
         { dict := [], codeSize := 9, nextCode := 258, prev := 7 }) :=
  lzw_dict_reset.1 ⟨[], 12, 4096, 5⟩ 7 (by decide) (by decide)

/-- C5: For every non-empty index plane, the emitted code sequence
begins with the clear code 256 and ends with the code for the final
current sequence (the loop's final `prev`) immediately followed by the
end-of-information code 257; on the all-zero 2×2 plane `[0,0,0,0]` the
codes are exactly `[256, 0, 258, 0, 257]`. -/
theorem lzw_stream_framing :
    (∀ p0 rest, ∃ mid, (lzwRun p0 rest).1.map (fun e => e.1)
        = 256 :: mid ++ [(lzwRun p0 rest).2.prev, 257]) ∧
    (lzwRun 0 [0, 0, 0]).1.map (fun e => e.1) = [256, 0, 258, 0, 257] := by
  refine ⟨fun p0 rest => ⟨(lzwLoop rest (lzwInit p0)).1.map (fun e => e.1), ?_⟩,
    by decide⟩
  simp [lzwRun]

/-! ## Palette construction and pixel indexing (`addFrame`)

Frames are lists of `(r, g, b)` byte triples (the alpha channel of the
RGBA stream is ignored by the source).  `colorCounts` is a JS object keyed
by the canonical decimal string of the 24-bit quantized key, so
`Object.keys` enumerates the distinct keys in ascending numeric order;
`Array.prototype.sort` with comparator `b.count - a.count` is the stable
descending-by-count sort of that enumeration, which is exactly
`List.insertionSort` with `fun a b => b.2 ≤ a.2`. -/

/-- Quantized 24-bit key of a pixel: each channel masked with `0xF8`. -/
def quantKey (p : Nat × Nat × Nat) : Nat :=
  ((p.1 &&& 0xF8) <<< 16) ||| ((p.2.1 &&& 0xF8) <<< 8) ||| (p.2.2 &&& 0xF8)

/-- `colorCounts[key]`: occurrences of quantized key `k` in the frame. -/
def countKey (pixels : List (Nat × Nat × Nat)) (k : Nat) : Nat :=
  (pixels.filter (fun p => quantKey p == k)).length

/-- The distinct quantized keys of the frame in ascending order —
the `Object.keys(colorCounts)` enumeration. -/
def keysAsc (pixels : List (Nat × Nat × Nat)) : List Nat :=
  List.insertionSort (· ≤ ·) (pixels.map quantKey).dedup

/-- `sortedColors`: the `(key, count)` pairs stably sorted by descending
count, truncated to the 256 most frequent. -/
def sortedColors (pixels : List (Nat × Nat × Nat)) : List (Nat × Nat) :=
  (List.insertionSort (fun a b => b.2 ≤ a.2)
    ((keysAsc pixels).map (fun k => (k, countKey pixels k)))).take 256

/-- The RGB bytes pushed into `palette` before padding. -/
def flatPalette (pixels : List (Nat × Nat × Nat)) : List Nat :=
  (sortedColors pixels).flatMap
    (fun e => [(e.1 >>> 16) &&& 255, (e.1 >>> 8) &&& 255, e.1 &&& 255])

/-- The local color table: palette bytes zero-padded to `256 * 3`
(`while (palette.length < 256 * 3) palette.push(0)`). -/
def paletteBytes (pixels : List (Nat × Nat × Nat)) : List Nat :=
  flatPalette pixels ++ List.replicate (768 - (flatPalette pixels).length) 0

/-- `colorMap[key]`: the palette index assigned to key `k`, i.e. the
position of `k` in `sortedColors` (keys are distinct). -/
def posOf (k : Nat) : List (Nat × Nat) → Option Nat
  | [] => none
  | e :: rest => if e.1.beq k = true then some 0 else (posOf k rest).map (· + 1)

/-- Squared Euclidean RGB distance between `(r, g, b)` and the palette
entry with 24-bit key `c` — `(r-cr)*(r-cr) + (g-cg)*(g-cg) + (b-cb)*(b-cb)`
over JS numbers, i.e. over `Int`. -/
def distSq (r g b c : Nat) : Int :=
  ((r : Int) - (((c >>> 16) &&& 255 : Nat) : Int)) *
      ((r : Int) - (((c >>> 16) &&& 255 : Nat) : Int)) +
  ((g : Int) - (((c >>> 8) &&& 255 : Nat) : Int)) *
      ((g : Int) - (((c >>> 8) &&& 255 : Nat) : Int)) +
  ((b : Int) - ((c &&& 255 : Nat) : Int)) * ((b : Int) - ((c &&& 255 : Nat) : Int))

/-- The `for (var j = ...)` linear scan for the closest palette entry.
`bestDist` starts at `Infinity`, modelled as `none`; `bestIdx` starts 0;
the update uses strict `<`, so the earliest minimizing index wins. -/
def closestLoop (r g b : Nat) : List Nat → Nat → Option Int → Nat → Option Int × Nat
  | [], _, best, bi => (best, bi)
  | c :: rest, j, best, bi =>
    match best with
    | none => closestLoop r g b rest (j + 1) (some (distSq r g b c)) j
    | some bd =>
      if distSq r g b c < bd then closestLoop r g b rest (j + 1) (some (distSq r g b c)) j
      else closestLoop r g b rest (j + 1) (some bd) bi

def closestIdx (r g b : Nat) (cols : List Nat) : Nat :=
  (closestLoop r g b cols 0 none 0).2

/-- Palette index assigned to one pixel: fast path through `colorMap`,
slow path through the closest-color scan — which compares the palette
entries against the *masked* channel values `r`, `g`, `b` of the pixel
(the source reuses the quantized `r`, `g`, `b` variables). -/
def indexOne (cols : List (Nat × Nat)) (p : Nat × Nat × Nat) : Nat :=
  match posOf (quantKey p) cols with
  | some i => i
  | none =>
    closestIdx (p.1 &&& 0xF8) (p.2.1 &&& 0xF8) (p.2.2 &&& 0xF8) (cols.map Prod.fst)

/-- The frame's index plane (`indexed`). -/
def indexPlane (pixels : List (Nat × Nat × Nat)) : List Nat :=
  pixels.map (indexOne (sortedColors pixels))

theorem posOf_spec {k : Nat} :
    ∀ {l : List (Nat × Nat)} {i : Nat}, posOf k l = some i →
      i < l.length ∧ (l.map Prod.fst).getD i 0 = k := by
  intro l
  induction l with
  | nil => intro i h; cases h
  | cons e rest ih =>
    intro i h
    unfold posOf at h
    by_cases hb : e.1.beq k = true
    · rw [if_pos hb] at h
      cases h
      exact ⟨Nat.succ_pos _, Nat.eq_of_beq_eq_true hb⟩
    · rw [if_neg hb] at h
      cases hpos : posOf k rest with
      | none => rw [hpos] at h; cases h
      | some i' =>
        rw [hpos] at h
        cases h
        obtain ⟨h1, h2⟩ := ih hpos
        exact ⟨by simpa using Nat.succ_lt_succ h1, by simpa using h2⟩

theorem posOf_mem_some {k : Nat} :
    ∀ {l : List (Nat × Nat)}, k ∈ l.map Prod.fst → ∃ i, posOf k l = some i := by
  intro l
  induction l with
  | nil => intro h; cases h
  | cons e rest ih =>
    intro h
    unfold posOf
    by_cases hb : e.1.beq k = true
    · exact ⟨0, by rw [if_pos hb]⟩
    · simp only [List.map_cons, List.mem_cons] at h
      rcases h with h | h
      · exact absurd (Nat.beq_eq_true_eq e.1 k ▸ h.symm) (by simpa using hb)
      · obtain ⟨i, hi⟩ := ih h
        exact ⟨i + 1, by rw [if_neg hb, hi]; rfl⟩

theorem closestLoop_spec (r g b : Nat) :
    ∀ (cols : List Nat) (j bi : Nat) (bd : Int),
      ∃ bd', (closestLoop r g b cols j (some bd) bi).1 = some bd' ∧
        bd' ≤ bd ∧
        (∀ k, k < cols.length → bd' ≤ distSq r g b (cols.getD k 0)) ∧
        (((closestLoop r g b cols j (some bd) bi).2 = bi ∧ bd' = bd) ∨
         (∃ k, k < cols.length ∧ (closestLoop r g b cols j (some bd) bi).2 = j + k ∧
            bd' = distSq r g b (cols.getD k 0))) := by
  intro cols
  induction cols with
  | nil =>
    intro j bi bd
    exact ⟨bd, rfl, le_refl bd, fun k hk => absurd hk (by simp), Or.inl ⟨rfl, rfl⟩⟩
  | cons c rest ih =>
    intro j bi bd
    by_cases hd : distSq r g b c < bd
    · obtain ⟨bd', h1, h2, h3, h4⟩ := ih (j + 1) j (distSq r g b c)
      have hred : closestLoop r g b (c :: rest) j (some bd) bi
          = closestLoop r g b rest (j + 1) (some (distSq r g b c)) j := by
        simp [closestLoop, hd]
      refine ⟨bd', by rw [hred]; exact h1, le_trans h2 (le_of_lt hd), ?_, ?_⟩
      · intro k hk
        match k with
        | 0 => simpa using h2
        | k + 1 => simpa using h3 k (by simpa using hk)
      · rw [hred]
        rcases h4 with ⟨hidx, hbd⟩ | ⟨k, hk, hidx, hbd⟩
        · exact Or.inr ⟨0, Nat.succ_pos _, by omega, by simpa using hbd⟩
        · exact Or.inr ⟨k + 1, by simpa using Nat.succ_lt_succ hk, by omega, by simpa using hbd⟩
    · obtain ⟨bd', h1, h2, h3, h4⟩ := ih (j + 1) bi bd
      have hred : closestLoop r g b (c :: rest) j (some bd) bi
          = closestLoop r g b rest (j + 1) (some bd) bi := by
        simp [closestLoop, hd]
      refine ⟨bd', by rw [hred]; exact h1, h2, ?_, ?_⟩
      · intro k hk
        match k with
        | 0 => simpa using le_trans h2 (le_of_not_lt hd)
        | k + 1 => simpa using h3 k (by simpa using hk)
      · rw [hred]
        rcases h4 with ⟨hidx, hbd⟩ | ⟨k, hk, hidx, hbd⟩
        · exact Or.inl ⟨hidx, hbd⟩
        · exact Or.inr ⟨k + 1, by simpa using Nat.succ_lt_succ hk, by omega, by simpa using hbd⟩

theorem closestIdx_spec (r g b c : Nat) (rest : List Nat) :
    closestIdx r g b (c :: rest) < (c :: rest).length ∧
    ∀ k, k < (c :: rest).length →
      distSq r g b ((c :: rest).getD (closestIdx r g b (c :: rest)) 0)
        ≤ distSq r g b ((c :: rest).getD k 0) := by
  have hred : closestLoop r g b (c :: rest) 0 none 0
      = closestLoop r g b rest 1 (some (distSq r g b c)) 0 := by
    simp [closestLoop]
  obtain ⟨bd', h1, h2, h3, h4⟩ := closestLoop_spec r g b rest 1 0 (distSq r g b c)
  have hidx : closestIdx r g b (c :: rest) = (closestLoop r g b rest 1
      (some (distSq r g b c)) 0).2 := by
    rw [closestIdx, hred]
  rcases h4 with ⟨hi, hbd⟩ | ⟨k, hk, hi, hbd⟩
  · constructor
    · rw [hidx, hi]; exact Nat.succ_pos _
    · intro k hkl
      rw [hidx, hi]
      match k with
      | 0 => exact le_refl _
      | k + 1 =>
        have hh := h3 k (by simpa using hkl)
        rw [hbd] at hh
        simpa using hh
  · constructor
    · rw [hidx, hi]
      simp only [List.length_cons]
      omega
    · intro k' hkl
      have hgd : (c :: rest).getD (1 + k) 0 = rest.getD k 0 := by
        rw [Nat.add_comm]; rfl
      rw [hidx, hi, hgd, ← hbd]
      match k' with
      | 0 => simpa using h2
      | k' + 1 => simpa using h3 k' (by simpa using hkl)

theorem mem_keysAsc {pixels : List (Nat × Nat × Nat)} {k : Nat} :
    k ∈ keysAsc pixels ↔ ∃ p ∈ pixels, quantKey p = k := by
  unfold keysAsc
  rw [List.mem_insertionSort, List.mem_dedup, List.mem_map]

theorem sortedColors_ne_nil {pixels : List (Nat × Nat × Nat)} (h : pixels ≠ []) :
    sortedColors pixels ≠ [] := by
  have h1 : (pixels.map quantKey).dedup ≠ [] := by
    rw [ne_eq, List.dedup_eq_nil, List.map_eq_nil_iff]
    exact h
  have h2 : 0 < (keysAsc pixels).length := by
    rw [keysAsc, List.length_insertionSort]
    exact List.length_pos.mpr h1
  have h3 : 0 < (sortedColors pixels).length := by
    rw [sortedColors, List.length_take, List.length_insertionSort, List.length_map]
    omega
  exact List.length_pos.mp h3

theorem sortedColors_length_le (pixels : List (Nat × Nat × Nat)) :
    (sortedColors pixels).length ≤ 256 := by
  rw [sortedColors, List.length_take]
  exact min_le_left _ _

theorem flatPalette_length (pixels : List (Nat × Nat × Nat)) :
    (flatPalette pixels).length = 3 * (sortedColors pixels).length := by
  rw [flatPalette]
  generalize sortedColors pixels = l
  induction l with
  | nil => rfl
  | cons e rest ih =>
    rw [List.flatMap_cons, List.length_append, ih, List.length_cons]
    simp only [List.length_cons, List.length_nil]
    omega

theorem indexOne_lt_length (pixels : List (Nat × Nat × Nat)) (p : Nat × Nat × Nat)
    (hp : p ∈ pixels) :
    indexOne (sortedColors pixels) p < (sortedColors pixels).length := by
  cases hpos : posOf (quantKey p) (sortedColors pixels) with
  | some i => simpa [indexOne, hpos] using (posOf_spec hpos).1
  | none =>
    have hne : sortedColors pixels ≠ [] :=
      sortedColors_ne_nil (fun hnil => by subst hnil; cases hp)
    obtain ⟨e, rest', hcons⟩ := List.exists_cons_of_ne_nil hne
    have hmap : (sortedColors pixels).map Prod.fst = e.1 :: rest'.map Prod.fst := by
      rw [hcons]; rfl
    have hlt := (closestIdx_spec (p.1 &&& 0xF8) (p.2.1 &&& 0xF8) (p.2.2 &&& 0xF8)
      e.1 (rest'.map Prod.fst)).1
    have hlen : (sortedColors pixels).length = (e.1 :: rest'.map Prod.fst).length := by
      rw [← hmap, List.length_map]
    simp only [indexOne, hpos, hmap]
    omega

/-- C4: the quantized key masks each channel with `0xF8`; on a frame with at
most 256 distinct quantized colors the palette consists of exactly those
colors (keys are a permutation of the distinct quantized keys, which are
exactly the keys occurring in the frame), in stable descending-count order,
and every pixel takes the fast path: `colorMap` holds its own quantized key
and `indexOne` returns that entry's palette position, so palette order is
the final index assignment. -/
theorem addFrame_exact_palette (pixels : List (Nat × Nat × Nat))
    (hle : (keysAsc pixels).length ≤ 256) :
    ((sortedColors pixels).map Prod.fst).Perm (keysAsc pixels) ∧
    (∀ k, k ∈ keysAsc pixels ↔ ∃ p ∈ pixels, quantKey p = k) ∧
    List.Pairwise (fun a b => b.2 ≤ a.2) (sortedColors pixels) ∧
    (∀ p ∈ pixels, ∃ i, posOf (quantKey p) (sortedColors pixels) = some i ∧
      indexOne (sortedColors pixels) p = i ∧
      ((sortedColors pixels).map Prod.fst).getD i 0 = quantKey p) := by
  have hfull : sortedColors pixels
      = List.insertionSort (fun a b => b.2 ≤ a.2)
          ((keysAsc pixels).map (fun k => (k, countKey pixels k))) := by
    rw [sortedColors]
    apply List.take_of_length_le
    rw [List.length_insertionSort, List.length_map]
    exact hle
  have hperm : ((sortedColors pixels).map Prod.fst).Perm (keysAsc pixels) := by
    rw [hfull]
    have h1 := (List.perm_insertionSort (fun a b : Nat × Nat => b.2 ≤ a.2)
      ((keysAsc pixels).map (fun k => (k, countKey pixels k)))).map Prod.fst
    rw [List.map_map] at h1
    have h2 : List.map (Prod.fst ∘ fun k => (k, countKey pixels k)) (keysAsc pixels)
        = keysAsc pixels := by
      simp [Function.comp_def]
    rw [h2] at h1
    exact h1
  refine ⟨hperm, fun k => mem_keysAsc, ?_, ?_⟩
  · rw [hfull]
    haveI : IsTotal (Nat × Nat) (fun a b => b.2 ≤ a.2) := ⟨fun a b => le_total b.2 a.2⟩
    haveI : IsTrans (Nat × Nat) (fun a b => b.2 ≤ a.2) :=
      ⟨fun _ _ _ h1 h2 => le_trans h2 h1⟩
    exact List.sorted_insertionSort _ _
  · intro p hp
    have hk : quantKey p ∈ (sortedColors pixels).map Prod.fst :=
      hperm.mem_iff.mpr (mem_keysAsc.mpr ⟨p, hp, rfl⟩)
    obtain ⟨i, hi⟩ := posOf_mem_some hk
    obtain ⟨h1, h2⟩ := posOf_spec hi
    exact ⟨i, hi, by simp [indexOne, hi], h2⟩

theorem addFrame_exact_palette_witness :
    ((sortedColors [((0, 0, 0) : Nat × Nat × Nat), (8, 0, 0), (0, 0, 0)]).map
      Prod.fst).Perm (keysAsc [((0, 0, 0) : Nat × Nat × Nat), (8, 0, 0), (0, 0, 0)]) :=
  (addFrame_exact_palette [((0, 0, 0) : Nat × Nat × Nat), (8, 0, 0), (0, 0, 0)]
    (by decide)).1

/-- C6: the local color table is always exactly 256 entries (768 bytes):
the populated palette bytes are `3 ×` the entry count and the table is
zero-padded up to 768 bytes; and every value in the index plane is
strictly below 256. -/
theorem addFrame_palette_size (pixels : List (Nat × Nat × Nat)) :
    (paletteBytes pixels).length = 768 ∧
    (flatPalette pixels).length = 3 * (sortedColors pixels).length ∧
    paletteBytes pixels
      = flatPalette pixels ++ List.replicate (768 - (flatPalette pixels).length) 0 ∧
    (∀ v ∈ indexPlane pixels, v < 256) := by
  have hle := sortedColors_length_le pixels
  refine ⟨?_, flatPalette_length pixels, rfl, ?_⟩
  · rw [paletteBytes, List.length_append, List.length_replicate, flatPalette_length]
    omega
  · intro v hv
    rw [indexPlane, List.mem_map] at hv
    obtain ⟨p, hp, rfl⟩ := hv
    exact lt_of_lt_of_le (indexOne_lt_length pixels p hp) hle

theorem addFrame_palette_size_witness :
    (paletteBytes [((0, 0, 0) : Nat × Nat × Nat)]).length = 768 ∧ (0 : Nat) < 256 :=
  ⟨(addFrame_palette_size [((0, 0, 0) : Nat × Nat × Nat)]).1,
   (addFrame_palette_size [((0, 0, 0) : Nat × Nat × Nat)]).2.2.2 0 (by decide)⟩

/-- Frame with 257 distinct quantized colors.  The 254 fillers
`(8·(i/16), 8·(i%16), 0)` are far from white; then `(240,248,248)` and
`(248,248,240)` are both at squared distance 64 from the quantized probe
`(248,248,248)`; the probe pixel `(255,248,248)` has the largest quantized
key, which is the one dropped from the top-256 palette. -/
def missPixels : List (Nat × Nat × Nat) :=
  ((List.range 254).map (fun i => (8 * (i / 16), 8 * (i % 16), 0))) ++
  [(240, 248, 248), (248, 248, 240), (255, 248, 248)]

set_option maxRecDepth 100000 in
set_option maxHeartbeats 3000000 in
/-- C3 (counterexample): in the frame `missPixels` the probe pixel
`(255,248,248)` misses `colorMap`, and the index the encoder picks
(entry `(240,248,248)`, winning the strict-`<` tie at quantized distance
64) is *not* one minimizing the distance to the original unquantized
pixel: entry 255, `(248,248,240)`, is strictly closer to `(255,248,248)`
(113 < 225).  This refutes the claim that the slow path minimizes the
distance against the original pixel value. -/
theorem addFrame_closest_counterexample :
    posOf (quantKey (255, 248, 248)) (sortedColors missPixels) = none ∧
    ((255, 248, 248) : Nat × Nat × Nat) ∈ missPixels ∧
    255 < (sortedColors missPixels).length ∧
    distSq 255 248 248 (((sortedColors missPixels).map Prod.fst).getD 255 0)
      < distSq 255 248 248
          (((sortedColors missPixels).map Prod.fst).getD
            (indexOne (sortedColors missPixels) (255, 248, 248)) 0) := by
  refine ⟨by decide, by decide, by decide, by decide⟩

/-- C3 (amended): on a `colorMap` miss the chosen index minimizes the
squared RGB distance between the palette entry and the *quantized*
(0xF8-masked) pixel value — the source compares against the masked `r`,
`g`, `b` — and every pixel of the frame maps to an index strictly below
the palette entry count. -/
theorem addFrame_closest_amended (pixels : List (Nat × Nat × Nat))
    (p : Nat × Nat × Nat) (hp : p ∈ pixels)
    (hmiss : posOf (quantKey p) (sortedColors pixels) = none) :
    (∀ q ∈ pixels, indexOne (sortedColors pixels) q < (sortedColors pixels).length) ∧
    ∀ j, j < (sortedColors pixels).length →
      distSq (p.1 &&& 0xF8) (p.2.1 &&& 0xF8) (p.2.2 &&& 0xF8)
          (((sortedColors pixels).map Prod.fst).getD
            (indexOne (sortedColors pixels) p) 0)
        ≤ distSq (p.1 &&& 0xF8) (p.2.1 &&& 0xF8) (p.2.2 &&& 0xF8)
            (((sortedColors pixels).map Prod.fst).getD j 0) := by
  have hne : sortedColors pixels ≠ [] :=
    sortedColors_ne_nil (fun hnil => by subst hnil; cases hp)
  obtain ⟨e, rest', hcons⟩ := List.exists_cons_of_ne_nil hne
  have hmap : (sortedColors pixels).map Prod.fst = e.1 :: rest'.map Prod.fst := by
    rw [hcons]; rfl
  have hidx : indexOne (sortedColors pixels) p
      = closestIdx (p.1 &&& 0xF8) (p.2.1 &&& 0xF8) (p.2.2 &&& 0xF8)
          (e.1 :: rest'.map Prod.fst) := by
    simp [indexOne, hmiss, hmap]
  obtain ⟨hlt, hmin⟩ := closestIdx_spec (p.1 &&& 0xF8) (p.2.1 &&& 0xF8) (p.2.2 &&& 0xF8)
    e.1 (rest'.map Prod.fst)
  have hlen : (sortedColors pixels).length = (e.1 :: rest'.map Prod.fst).length := by
    rw [← hmap, List.length_map]
  refine ⟨fun q hq => indexOne_lt_length pixels q hq, ?_⟩
  intro j hj
  rw [hmap, hidx]
  exact hmin j (by omega)

/-! ## Bit packing, sub-blocking and frame assembly

`emit` ors the code into the bit buffer at offset `bufferLen` and flushes
whole bytes; since every packed code is below `2^12` and `bufferLen` stays
below 8 between emissions, the JS int32 operations coincide with `Nat`
arithmetic here. -/

/-- The `while (bufferLen >= 8)` flush inside `emit`: returns the bytes
pushed to `output` and the remaining buffer and bit count. -/
def flushBytes (buffer bufferLen : Nat) : List Nat × Nat × Nat :=
  if h : 8 ≤ bufferLen then
    ((buffer &&& 255) :: (flushBytes (buffer >>> 8) (bufferLen - 8)).1,
     (flushBytes (buffer >>> 8) (bufferLen - 8)).2)
  else ([], buffer, bufferLen)
termination_by bufferLen
decreasing_by omega

/-- One `emit(code)` at a given width over the accumulated
`(output, buffer, bufferLen)`. -/
def packEmit (acc : List Nat × Nat × Nat) (cw : Nat × Nat) : List Nat × Nat × Nat :=
  (acc.1 ++ (flushBytes (acc.2.1 ||| (cw.1 <<< acc.2.2)) (acc.2.2 + cw.2)).1,
   (flushBytes (acc.2.1 ||| (cw.1 <<< acc.2.2)) (acc.2.2 + cw.2)).2)

/-- The byte list `output` of `lzwEncode`: all `(code, width)` emissions
packed, then `if (bufferLen > 0) output.push(buffer & 0xFF)`. -/
def packCodes (codes : List (Nat × Nat)) : List Nat :=
  (codes.foldl packEmit ([], 0, 0)).1 ++
  (if 0 < (codes.foldl packEmit ([], 0, 0)).2.2
   then [(codes.foldl packEmit ([], 0, 0)).2.1 &&& 255] else [])

/-- The compressed byte stream of a non-empty index plane `p0 :: rest`. -/
def lzwOutput (p0 : Nat) (rest : List Nat) : List Nat :=
  packCodes ((lzwRun p0 rest).1.map (fun e => (e.1, e.2.1)))

/-- The `for (var i = 0; i < output.length; i += 255)` split of `output`
into chunks of at most 255 bytes. -/
def chunkList (l : List Nat) : List (List Nat) :=
  match l with
  | [] => []
  | x :: xs => ((x :: xs).take 255) :: chunkList ((x :: xs).drop 255)
termination_by l.length
decreasing_by simp; omega

/-- The rendered sub-block stream: each chunk is preceded by its one-byte
length prefix, and all bytes go through `writeByte`. -/
def subBlockStream (out : List Nat) : List Nat :=
  (chunkList out).flatMap (fun c => writeByte c.length ++ c.flatMap writeByte)

/-- Graphic control extension: `0x21 0xF9 0x04`, flags `0x00`, delay in
centiseconds (`Math.round(delay / 10)` as little-endian 16-bit),
transparent index `0x00`, block terminator `0x00`. -/
def gce (delay : Nat) : List Nat :=
  writeByte 0x21 ++ writeByte 0xF9 ++ writeByte 0x04 ++ writeByte 0x00 ++
  writeShort (roundDiv10 delay) ++ writeByte 0x00 ++ writeByte 0x00

/-- Image descriptor: `0x2C`, origin `(0, 0)`, frame size, flags `0x87`
(local color table, 256 entries). -/
def imageDescriptor (w h : Nat) : List Nat :=
  writeByte 0x2C ++ writeShort 0 ++ writeShort 0 ++ writeShort w ++ writeShort h ++
  writeByte 0x87

/-- Bytes appended by `addFrame` for a non-empty frame `p0 :: rest`:
graphic control extension, image descriptor, the local color table, the
LZW minimum code size byte 8, the sub-blocked compressed payload, and the
zero block terminator. -/
def addFrame (w h delay : Nat) (p0 : Nat × Nat × Nat)
    (rest : List (Nat × Nat × Nat)) : List Nat :=
  gce delay ++ imageDescriptor w h ++
  (paletteBytes (p0 :: rest)).flatMap writeByte ++ writeByte 8 ++
  subBlockStream (lzwOutput (indexOne (sortedColors (p0 :: rest)) p0)
    (rest.map (indexOne (sortedColors (p0 :: rest))))) ++
  writeByte 0

theorem chunkList_props (l : List Nat) :
    (∀ c ∈ chunkList l, 1 ≤ c.length ∧ c.length ≤ 255) ∧
    (∀ c ∈ (chunkList l).dropLast, c.length = 255) ∧
    (chunkList l).flatten = l := by
  induction l using chunkList.induct with
  | case1 => exact ⟨by simp [chunkList], by simp [chunkList], by simp [chunkList]⟩
  | case2 x xs ih =>
    obtain ⟨ih1, ih2, ih3⟩ := ih
    rw [chunkList]
    refine ⟨?_, ?_, ?_⟩
    · intro c hc
      rcases List.mem_cons.mp hc with rfl | hc
      · rw [List.length_take]
        constructor
        · simp only [List.length_cons]
          omega
        · exact min_le_left _ _
      · exact ih1 c hc
    · intro c hc
      by_cases hnil : chunkList ((x :: xs).drop 255) = []
      · rw [hnil] at hc
        simp at hc
      · rw [List.dropLast_cons_of_ne_nil hnil] at hc
        rcases List.mem_cons.mp hc with rfl | hc
        · have hlong : 255 < (x :: xs).length := by
            by_contra hle
            push_neg at hle
            rw [List.drop_eq_nil_of_le hle] at hnil
            exact hnil (by rw [chunkList])
          rw [List.length_take]
          omega
        · exact ih2 c hc
    · rw [List.flatten_cons, ih3, List.take_append_drop]

theorem flatMap_writeByte (c : List Nat) :
    c.flatMap writeByte = c.map (fun b => b % 256) := by
  induction c with
  | nil => rfl
  | cons b rest ih => simp [List.flatMap_cons, writeByte, ih]

theorem subBlock_render (L : List (List Nat)) (h : ∀ c ∈ L, c.length ≤ 255) :
    L.flatMap (fun c => writeByte c.length ++ c.flatMap writeByte)
      = L.flatMap (fun c => c.length :: c.map (fun b => b % 256)) := by
  induction L with
  | nil => rfl
  | cons c rest ih =>
    rw [List.flatMap_cons, List.flatMap_cons,
      ih (fun d hd => h d (List.mem_cons_of_mem _ hd))]
    have hc := h c (List.mem_cons_self _ _)
    rw [flatMap_writeByte, writeByte, Nat.mod_eq_of_lt (by omega)]
    rfl

/-- C7: the compressed payload is split into sub-blocks of at most 255
bytes whose one-byte length prefixes lie in [1, 255]; every sub-block
except possibly the last is exactly 255 bytes long; concatenating the
chunks recovers the payload; the rendered stream is exactly the
length-prefixed chunks; and `addFrame` writes exactly one zero-length
terminator byte immediately after the final sub-block. -/
theorem subBlocks_wellformed :
    (∀ out : List Nat,
      (∀ c ∈ chunkList out, 1 ≤ c.length ∧ c.length ≤ 255) ∧
      (∀ c ∈ (chunkList out).dropLast, c.length = 255) ∧
      (chunkList out).flatten = out ∧
      subBlockStream out
        = (chunkList out).flatMap (fun c => c.length :: c.map (fun b => b % 256))) ∧
    (∀ w h delay : Nat, ∀ p0 : Nat × Nat × Nat, ∀ rest : List (Nat × Nat × Nat),
      addFrame w h delay p0 rest
        = gce delay ++ imageDescriptor w h ++
          (paletteBytes (p0 :: rest)).flatMap writeByte ++ [8] ++
          subBlockStream (lzwOutput (indexOne (sortedColors (p0 :: rest)) p0)
            (rest.map (indexOne (sortedColors (p0 :: rest))))) ++ [0]) := by
  refine ⟨fun out => ⟨(chunkList_props out).1, (chunkList_props out).2.1,
    (chunkList_props out).2.2, ?_⟩, fun w h delay p0 rest => rfl⟩
  rw [subBlockStream]
  exact subBlock_render _ (fun c hc => ((chunkList_props out).1 c hc).2)

theorem subBlocks_wellformed_witness :
    1 ≤ ([(7 : Nat)] : List Nat).length ∧ ([(7 : Nat)] : List Nat).length ≤ 255 :=
  (subBlocks_wellformed.1 [7]).1 [7] (by simp [chunkList])

/-- C8: the graphic control extension's two delay bytes encode
`Math.round(delay / 10)` centiseconds — equal to Mathlib's `round` of the
rational `delay / 10` — in little-endian 16-bit order; 45 ms encodes as
bytes `0x05 0x00` and 0 ms as `0x00 0x00`. -/
theorem gce_delay_encoding :
    (∀ d : Nat,
      ((roundDiv10 d : ℤ) = round ((d : ℚ) / 10)) ∧
      gce d = [0x21, 0xF9, 0x04, 0x00,
               roundDiv10 d % 256, roundDiv10 d / 256 % 256, 0x00, 0x00] ∧
      roundDiv10 d % 256 + 256 * (roundDiv10 d / 256 % 256) = roundDiv10 d % 65536) ∧
    gce 45 = [0x21, 0xF9, 0x04, 0x00, 0x05, 0x00, 0x00, 0x00] ∧
    gce 0 = [0x21, 0xF9, 0x04, 0x00, 0x00, 0x00, 0x00, 0x00] := by
  refine ⟨fun d => ⟨?_, ?_, ?_⟩, by decide, by decide⟩
  · have hq : (d : ℚ) / 10 + 1 / 2 = ((d + 5 : ℕ) : ℚ) / 10 := by push_cast; ring
    rw [round_eq, hq, eq_comm, Int.floor_eq_iff]
    constructor
    · rw [le_div_iff₀ (by norm_num : (0 : ℚ) < 10)]
      have h1 : (d + 5) / 10 * 10 ≤ d + 5 := Nat.div_mul_le_self _ _
      rw [roundDiv10]
      push_cast
      exact_mod_cast h1
    · rw [div_lt_iff₀ (by norm_num : (0 : ℚ) < 10)]
      have h2 : d + 5 < ((d + 5) / 10 + 1) * 10 := by omega
      rw [roundDiv10]
      push_cast
      exact_mod_cast h2
  · norm_num [gce, writeByte, writeShort_eq]
  · omega

theorem writeString_GIF89a :
    writeString "GIF89a" = [0x47, 0x49, 0x46, 0x38, 0x39, 0x61] := by decide

theorem writeString_NETSCAPE :
    writeString "NETSCAPE2.0"
      = [0x4E, 0x45, 0x54, 0x53, 0x43, 0x41, 0x50, 0x45, 0x32, 0x2E, 0x30] := by decide

/-- C9: `start()` writes the `GIF89a` signature, width and height as
little-endian 16-bit, flags `0x70`, background index 0, aspect ratio 0,
then the NETSCAPE2.0 looping extension with loop count 0 (infinite) and
terminator; `finish()` appends exactly the trailer byte `0x3B`. -/
theorem start_finish_bytes :
    (∀ w h : Nat, start w h
      = [0x47, 0x49, 0x46, 0x38, 0x39, 0x61,
         w % 256, w / 256 % 256, h % 256, h / 256 % 256,
         0x70, 0x00, 0x00, 0x21, 0xFF, 0x0B,
         0x4E, 0x45, 0x54, 0x53, 0x43, 0x41, 0x50, 0x45, 0x32, 0x2E, 0x30,
         0x03, 0x01, 0x00, 0x00, 0x00]) ∧
    (∀ data : List Nat, finish data = data ++ [0x3B]) := by
  constructor
  · intro w h
    rw [start, writeString_GIF89a, writeString_NETSCAPE,
      writeShort_eq, writeShort_eq, writeShort_eq]
    norm_num [writeByte]
  · intro data
    rfl

/-- C10: `writeShort` writes its natural argument reduced modulo `2^16`
in little-endian order (this is what the int32 masking in the source
amounts to), and it is what `start`, the image descriptor and the graphic
control extension use for width, height and delay — so out-of-range
values wrap silently: width 65537 encodes as `01 00`, and a delay of
655360 ms has centisecond value 65536, encoding as `00 00`. -/
theorem writeShort_wraps :
    (∀ s : Nat, writeShort s = [s % 65536 % 256, s % 65536 / 256] ∧
      s % 65536 % 256 + 256 * (s % 65536 / 256) = s % 65536) ∧
    (∀ w h : Nat, imageDescriptor w h
      = [0x2C, 0, 0, 0, 0] ++ writeShort w ++ writeShort h ++ [0x87]) ∧
    (∀ w h : Nat, start w h
      = writeString "GIF89a" ++ writeShort w ++ writeShort h ++
        ([0x70, 0, 0, 0x21, 0xFF, 0x0B] ++ writeString "NETSCAPE2.0" ++
         [0x03, 0x01] ++ writeShort 0 ++ [0])) ∧
    (∀ d : Nat, gce d = [0x21, 0xF9, 0x04, 0x00] ++ writeShort (roundDiv10 d) ++ [0, 0]) ∧
    writeShort 65537 = [1, 0] ∧
    roundDiv10 655360 = 65536 ∧ writeShort 65536 = [0, 0] := by
  refine ⟨fun s => ⟨?_, by omega⟩, fun w h => ?_, fun w h => ?_, fun d => ?_,
    by decide, by decide, by decide⟩
  · rw [writeShort_eq]
    have h1 : s % 65536 % 256 = s % 256 := by omega
    have h2 : s % 65536 / 256 = s / 256 % 256 := by omega
    rw [h1, h2]
  · simp [imageDescriptor, writeByte, writeShort]
  · simp [start, writeByte, writeShort]
  · simp [gce, writeByte, writeShort]

set_option maxRecDepth 100000 in
set_option maxHeartbeats 3000000 in
theorem addFrame_closest_amended_witness :
    distSq 248 248 248
        (((sortedColors missPixels).map Prod.fst).getD
          (indexOne (sortedColors missPixels) (255, 248, 248)) 0)
      ≤ distSq 248 248 248 (((sortedColors missPixels).map Prod.fst).getD 0 0) :=
  (addFrame_closest_amended missPixels (255, 248, 248) (by decide) (by decide)).2
    0 (by decide)

end GIFEnc
